import Mathlib

set_option autoImplicit false

/-!
Shallow embedding of `src/kqfm.c`, a kqueue-based file watcher.

The program reads newline-delimited paths on its control stream, registers a
kqueue `EVFILT_VNODE` watch for each, keeps the paths in a doubly-linked
registry built with `insque`, reports change events as `"<path>\t<flags>\n"`
lines, and dumps the registry to stderr on `SIGUSR1`.

Modelling conventions:
- OS integers are `Nat` (the flag masks involved are small and non-negative).
- Strings of the C program are Lean `String`s; stream bytes are `List Char`.
- `open(2)`/`kevent(2)` success and failure are supplied by an `Env` record of
  boolean oracles; `err(3)` becomes the `Outcome.fatal` constructor carrying
  the exit status and message.
-/

namespace Kqfm

/-! ### Change-kind flags (`EVFILT_VNODE` fflags, kqfm.c:40-55)

The numeric values are the `NOTE_*` constants from `<sys/event.h>`. -/

def NOTE_DELETE : Nat := 0x01

def NOTE_WRITE : Nat := 0x02

def NOTE_EXTEND : Nat := 0x04

def NOTE_ATTRIB : Nat := 0x08

def NOTE_LINK : Nat := 0x10

def NOTE_RENAME : Nat := 0x20

def NOTE_REVOKE : Nat := 0x40

/-- The fixed flag-description table `flag_descs` (kqfm.c:40-52), in source
order, without the `{0, 0}` terminator (our list is finite already). -/
def flag_descs : List (Nat × String) :=
  [(NOTE_DELETE, "DELETE"),
   (NOTE_WRITE,  "WRITE"),
   (NOTE_EXTEND, "EXTEND"),
   (NOTE_ATTRIB, "ATTRIB"),
   (NOTE_LINK,   "LINK"),
   (NOTE_RENAME, "RENAME"),
   (NOTE_REVOKE, "REVOKE")]

/-- The `ALL_FLAGS` mask (kqfm.c:54-55). -/
def ALL_FLAGS : Nat :=
  NOTE_DELETE ||| NOTE_WRITE ||| NOTE_EXTEND ||| NOTE_ATTRIB |||
  NOTE_LINK ||| NOTE_RENAME ||| NOTE_REVOKE

/-- The accumulation loop of `change_flags_to_msg` (kqfm.c:155-165): walk the
table; for each entry whose flag intersects `flags`, append a comma (when a
label was already emitted) and the label to the buffer. The C code grows the
buffer with `realloc`/`strcat`; allocation is assumed to succeed, so the
buffer is a plain string here. -/
def change_flags_loop (flags : Nat) (descs : List (Nat × String))
    (buf : String) (flagged : Bool) : String :=
  match descs with
  | [] => buf
  | d :: rest =>
    if d.1 &&& flags ≠ 0 then
      change_flags_loop flags rest (buf ++ (if flagged then "," else "") ++ d.2) true
    else
      change_flags_loop flags rest buf flagged

/-- Function `change_flags_to_msg` (kqfm.c:151-166): append the rendering of `flags`
to the caller-supplied buffer `buf` (callers pass an empty buffer). -/
def change_flags_to_msg (flags : Nat) (buf : String) : String :=
  change_flags_loop flags flag_descs buf false

/-- Comma-joining of a list of labels. -/
def comma_join : List String → String
  | [] => ""
  | [l] => l
  | l :: l' :: ls => l ++ "," ++ comma_join (l' :: ls)

/-- The labels of the table entries whose flag intersects `flags`, in table
order. -/
def matched_labels (flags : Nat) (descs : List (Nat × String)) : List String :=
  (descs.filter (fun d => d.1 &&& flags != 0)).map Prod.snd

/-- Modelled from the spec's words (§4.2): `render(bitmask)` is the labels
whose bit is set, comma-joined, in table order. This is the spec-side
definition `change_flags_to_msg` is compared against. -/
def render_spec (flags : Nat) : String :=
  comma_join (matched_labels flags flag_descs)

/-! #### Renderer lemmas -/

theorem change_flags_loop_eq (flags : Nat) (descs : List (Nat × String)) :
    ∀ (buf : String) (flagged : Bool),
      change_flags_loop flags descs buf flagged =
        if (matched_labels flags descs).isEmpty then buf
        else buf ++ (if flagged then "," else "") ++
          comma_join (matched_labels flags descs) := by
  induction descs with
  | nil => intro buf flagged; simp [change_flags_loop, matched_labels]
  | cons d rest ih =>
    intro buf flagged
    by_cases hd : d.1 &&& flags ≠ 0
    · have hm : matched_labels flags (d :: rest) =
          d.2 :: matched_labels flags rest := by
        simp [matched_labels, List.filter_cons, hd]
      rw [change_flags_loop, if_pos hd, ih, hm]
      cases hrest : matched_labels flags rest with
      | nil => simp [comma_join]
      | cons l ls =>
        simp only [List.isEmpty_cons, if_neg Bool.false_ne_true, comma_join]
        simp [String.append_assoc]
    · have hm : matched_labels flags (d :: rest) = matched_labels flags rest := by
        simp [matched_labels, List.filter_cons, hd]
      rw [change_flags_loop, if_neg hd, ih, hm]

theorem change_flags_to_msg_empty_buf (flags : Nat) :
    change_flags_to_msg flags "" = render_spec flags := by
  rw [change_flags_to_msg, change_flags_loop_eq, render_spec]
  cases h : matched_labels flags flag_descs with
  | nil => simp [comma_join]
  | cons l ls => simp

theorem change_flags_loop_congr (flags flags' : Nat) (descs : List (Nat × String))
    (h : ∀ d ∈ descs, d.1 &&& flags = d.1 &&& flags') :
    ∀ (buf : String) (flagged : Bool),
      change_flags_loop flags descs buf flagged =
        change_flags_loop flags' descs buf flagged := by
  induction descs with
  | nil => intro buf flagged; rfl
  | cons d rest ih =>
    intro buf flagged
    have hd : d.1 &&& flags = d.1 &&& flags' := h d (List.mem_cons_self d rest)
    have hrest : ∀ d ∈ rest, d.1 &&& flags = d.1 &&& flags' :=
      fun d hd => h d (List.mem_cons_of_mem _ hd)
    rw [change_flags_loop, change_flags_loop, hd]
    by_cases hz : d.1 &&& flags' ≠ 0
    · rw [if_pos hz, if_pos hz, ih hrest]
    · rw [if_neg hz, if_neg hz, ih hrest]

theorem and_mask_restrict (f m : Nat) (hf : f &&& ALL_FLAGS = f) :
    f &&& (m &&& ALL_FLAGS) = f &&& m := by
  rw [Nat.and_comm m ALL_FLAGS, ← Nat.and_assoc, hf]

/-- The per-event rendering of a run of change events: `handle_event`
(kqfm.c:168-178) renders each event's bitmask into a fresh empty buffer. -/
def render_run (ms : List Nat) : List String :=
  ms.map (fun m => change_flags_to_msg m "")

/-! ### Path registry (`struct path_entry`, `insque`, `dump_paths`)

Heap nodes are stored in an append-only list; a node's address is its index
in that list, and `NULL` pointers are `none`. -/

/-- The C `struct path_entry` (kqfm.c:32-36). -/
@[ext]
structure PathEntry where
  next : Option Nat
  prev : Option Nat
  path : String
deriving Repr, DecidableEq

/-- The registry anchors: node store, the static local `paths_head` of
`register_paths` (kqfm.c:107) and the global `paths_tail` (kqfm.c:38). -/
@[ext]
structure Registry where
  nodes : List PathEntry
  paths_head : Option Nat
  paths_tail : Option Nat
deriving Repr, DecidableEq

/-- POSIX `insque(new, pred)` on a linear list, where `new` is a fresh node
holding `path` allocated at index `nodes.length`: with `pred = NULL` the node
becomes a singleton (`next = prev = NULL`); otherwise `new` is spliced in
right after `pred`. Dereferencing a dangling index would be undefined
behaviour in C; those branches are unreachable under the chain invariant. -/
def insque_at (nodes : List PathEntry) (path : String) (pred : Option Nat) :
    List PathEntry :=
  let newId := nodes.length
  match pred with
  | none => nodes ++ [⟨none, none, path⟩]
  | some h =>
    match nodes[h]? with
    | none => nodes ++ [⟨none, some h, path⟩]
    | some he =>
      let nodes₁ := nodes ++ [⟨he.next, some h, path⟩]
      let nodes₂ := nodes₁.set h { he with next := some newId }
      match he.next with
      | none => nodes₂
      | some j =>
        match nodes₂[j]? with
        | none => nodes₂
        | some je => nodes₂.set j { je with prev := some newId }

/-- The registry update of one `register_paths` iteration (kqfm.c:138-141):
`insque(new_path, paths_head)`, set `paths_tail` if it was `NULL`, then
advance `paths_head` to the new node. -/
def registry_append (r : Registry) (path : String) : Registry :=
  { nodes := insque_at r.nodes path r.paths_head,
    paths_head := some r.nodes.length,
    paths_tail := if r.paths_tail.isNone then some r.nodes.length
                  else r.paths_tail }

/-- The paths held by the registry nodes, in allocation order. -/
def registry_paths (r : Registry) : List String :=
  r.nodes.map (·.path)

/-- The `next` pointer of node `i` in a well-formed chain of `n` nodes. -/
def chain_next (n i : Nat) : Option Nat :=
  if i + 1 < n then some (i + 1) else none

/-- The `prev` pointer of node `i` in a well-formed chain. -/
def chain_prev (i : Nat) : Option Nat :=
  if i = 0 then none else some (i - 1)

/-- The node store of a well-formed chain holding `ps` in allocation order. -/
def chain_nodes (ps : List String) : List PathEntry :=
  (List.range ps.length).map
    (fun i => ⟨chain_next ps.length i, chain_prev i, (ps[i]?).getD ""⟩)

/-- The registry shape `register_paths` actually builds after registering the
paths `ps` in order: oldest node at index 0 (= `paths_tail`), newest at the
end (= `paths_head`), `next` pointing from older to newer. -/
def mk_chain (ps : List String) : Registry :=
  { nodes := chain_nodes ps,
    paths_head := if ps = [] then none else some (ps.length - 1),
    paths_tail := if ps = [] then none else some 0 }

/-- The traversal of `dump_paths` (kqfm.c:215-226): start at `paths_tail`,
follow `next` until `NULL`, collecting paths. The C `do`/`while` could loop
forever on a cyclic structure; fuel bounds the traversal and suffices on the
well-formed chains that actually arise. -/
def dump_from (nodes : List PathEntry) : Nat → Option Nat → List String
  | _, none => []
  | 0, some _ => []
  | fuel + 1, some i =>
    match nodes[i]? with
    | none => []
    | some e => e.path :: dump_from nodes fuel e.next

/-- Function `dump_paths` (kqfm.c:215-226), as the list of lines printed to stderr. -/
def dump_paths (r : Registry) : List String :=
  dump_from r.nodes r.nodes.length r.paths_tail

/-! #### Registry lemmas -/

theorem chain_nodes_length (ps : List String) :
    (chain_nodes ps).length = ps.length := by
  simp [chain_nodes]

theorem chain_nodes_getElem? (ps : List String) (i : Nat) :
    (chain_nodes ps)[i]? =
      if i < ps.length then
        some ⟨chain_next ps.length i, chain_prev i, (ps[i]?).getD ""⟩
      else none := by
  by_cases h : i < ps.length
  · rw [if_pos h]
    simp [chain_nodes, List.getElem?_map, List.getElem?_range, h]
  · rw [if_neg h]
    have : (chain_nodes ps).length ≤ i := by
      rw [chain_nodes_length]; omega
    exact List.getElem?_eq_none this

theorem insque_at_chain (ps : List String) (p : String) (hps : ps ≠ []) :
    insque_at (chain_nodes ps) p (some (ps.length - 1)) =
      chain_nodes (ps ++ [p]) := by
  have hn : 0 < ps.length := List.length_pos.mpr hps
  have hlt : ps.length - 1 < ps.length := by omega
  have hhe : (chain_nodes ps)[ps.length - 1]? =
      some ⟨chain_next ps.length (ps.length - 1), chain_prev (ps.length - 1),
        (ps[ps.length - 1]?).getD ""⟩ := by
    rw [chain_nodes_getElem?, if_pos hlt]
  have hnext : chain_next ps.length (ps.length - 1) = none := by
    unfold chain_next
    rw [if_neg]; omega
  simp only [insque_at, hhe, hnext, chain_nodes_length]
  apply List.ext_getElem?
  intro i
  rw [chain_nodes_getElem?]
  have hlen1 : (chain_nodes ps ++
      [(⟨none, some (ps.length - 1), p⟩ : PathEntry)]).length = ps.length + 1 := by
    simp [chain_nodes_length]
  have hl2 : (ps ++ [p]).length = ps.length + 1 := by simp
  rw [List.getElem?_set, hlen1, hl2]
  by_cases hi : i = ps.length - 1
  · subst hi
    rw [if_pos rfl, if_pos (by omega : ps.length - 1 < ps.length + 1),
      if_pos (by omega : ps.length - 1 < ps.length + 1)]
    have hcn : chain_next (ps.length + 1) (ps.length - 1) =
        some ((ps.length - 1) + 1) := by
      unfold chain_next
      rw [if_pos (by omega)]
    rw [hcn]
    have hget : (ps ++ [p])[ps.length - 1]? = ps[ps.length - 1]? :=
      List.getElem?_append_left hlt
    rw [hget]
    have : (ps.length - 1) + 1 = ps.length := by omega
    rw [this]
  · rw [if_neg (by omega)]
    by_cases hi2 : i < ps.length
    · rw [if_pos (by omega : i < ps.length + 1), List.getElem?_append_left
        (by rw [chain_nodes_length]; omega), chain_nodes_getElem?, if_pos hi2]
      have h1 : chain_next (ps.length + 1) i = chain_next ps.length i := by
        unfold chain_next
        rw [if_pos (by omega), if_pos (by omega)]
      have h2 : (ps ++ [p])[i]? = ps[i]? := List.getElem?_append_left hi2
      rw [h1, h2]
    · by_cases hi3 : i = ps.length
      · subst hi3
        rw [if_pos (by omega : ps.length < ps.length + 1)]
        rw [List.getElem?_append_right (by rw [chain_nodes_length])]
        rw [chain_nodes_length]
        simp only [Nat.sub_self, List.getElem?_cons_zero]
        have h1 : chain_next (ps.length + 1) ps.length = none := by
          unfold chain_next
          rw [if_neg (by omega)]
        have h2 : chain_prev ps.length = some (ps.length - 1) := by
          unfold chain_prev
          rw [if_neg (by omega)]
        have h3 : (ps ++ [p])[ps.length]? = some p :=
          List.getElem?_concat_length ps p
        rw [h1, h2, h3]
        rfl
      · rw [if_neg (by omega)]
        apply List.getElem?_eq_none
        rw [hlen1]; omega

theorem registry_append_mk_chain (ps : List String) (p : String) :
    registry_append (mk_chain ps) p = mk_chain (ps ++ [p]) := by
  rcases hps : ps with _ | ⟨q, qs⟩
  · unfold registry_append mk_chain insque_at
    simp [chain_nodes, chain_next, chain_prev, List.range_succ]
  · rw [← hps]
    have hne : ps ≠ [] := by rw [hps]; simp
    have hne2 : ps ++ [p] ≠ [] := by simp
    apply Registry.ext
    · simp only [registry_append, mk_chain]
      rw [if_neg hne]
      exact insque_at_chain ps p hne
    · simp only [registry_append, mk_chain, chain_nodes_length]
      rw [if_neg hne2]
      simp
    · simp only [registry_append, mk_chain, chain_nodes_length]
      rw [if_neg hne, if_neg hne2]
      simp

theorem dump_from_chain (ps : List String) :
    ∀ (fuel j : Nat), j < ps.length → ps.length - j ≤ fuel →
      dump_from (chain_nodes ps) fuel (some j) = ps.drop j := by
  intro fuel
  induction fuel with
  | zero => intro j hj hf; omega
  | succ fuel ih =>
    intro j hj hf
    rw [dump_from, chain_nodes_getElem?, if_pos hj]
    simp only []
    have hpath : (ps[j]?).getD "" = ps[j] := by
      rw [List.getElem?_eq_getElem hj]; rfl
    rw [hpath, List.drop_eq_getElem_cons hj]
    by_cases hnext : j + 1 < ps.length
    · have : chain_next ps.length j = some (j + 1) := by
        unfold chain_next; rw [if_pos hnext]
      rw [this, ih (j + 1) hnext (by omega)]
    · have h1 : chain_next ps.length j = none := by
        unfold chain_next; rw [if_neg hnext]
      rw [h1, dump_from, List.drop_eq_nil_of_le (by omega)]

theorem dump_paths_mk_chain (ps : List String) :
    dump_paths (mk_chain ps) = ps := by
  rcases hps : ps with _ | ⟨q, qs⟩
  · rfl
  · rw [← hps]
    have hne : ps ≠ [] := by rw [hps]; simp
    unfold dump_paths mk_chain
    simp only [if_neg hne, chain_nodes_length]
    have h0 : 0 < ps.length := by rw [hps]; simp
    rw [dump_from_chain ps ps.length 0 h0 (by omega)]
    rfl

theorem registry_paths_mk_chain (ps : List String) :
    registry_paths (mk_chain ps) = ps := by
  apply List.ext_getElem?
  intro i
  by_cases h : i < ps.length
  · simp [registry_paths, mk_chain, List.getElem?_map, chain_nodes_getElem?, h,
      List.getElem?_eq_getElem h]
  · have h1 : ps.length ≤ i := by omega
    have h2 : (registry_paths (mk_chain ps)).length ≤ i := by
      simp [registry_paths, mk_chain, chain_nodes_length]; omega
    rw [List.getElem?_eq_none h1, List.getElem?_eq_none h2]

/-! ### Control stream and `fgetln` -/

/-- What the control stream yields once its buffered bytes are exhausted. -/
inductive StreamEnd where
  | eof
  | readError
deriving Repr, DecidableEq

/-- The buffered control stream: bytes not yet consumed, the terminal
condition behind them, and the `feof(3)` flag — set only once a read has
actually hit end-of-file, not merely when the last byte was consumed. -/
@[ext]
structure ControlStream where
  remaining : List Char
  ended : StreamEnd
  eofFlag : Bool
deriving Repr, DecidableEq

/-- The `fgetln(3)` call on the control stream: return the next line including its
newline terminator; with no newline left, at end-of-file return the final
partial line (setting `feof`) or `none` with `feof` set if no bytes remain;
on a read error return `none` without setting `feof`. -/
def fgetln (s : ControlStream) : Option (List Char) × ControlStream :=
  if s.remaining = [] then
    match s.ended with
    | .eof => (none, { s with eofFlag := true })
    | .readError => (none, s)
  else
    match s.remaining.dropWhile (fun c => c != '\n') with
    | [] =>
      match s.ended with
      | .eof => (some (s.remaining.takeWhile (fun c => c != '\n')),
                 { s with remaining := [], eofFlag := true })
      | .readError => (none, { s with remaining := [] })
    | nl :: rest =>
      (some (s.remaining.takeWhile (fun c => c != '\n') ++ [nl]),
       { s with remaining := rest })

/-! ### Program state and OS environment -/

/-- Environment oracles for the OS calls the claims depend on: whether
`open(2)` succeeds on a path, whether the `kevent(2)` registration succeeds,
and the `errno` a failed `open` leaves behind (POSIX: a positive value). -/
structure Env where
  canOpen : String → Bool
  canWatch : String → Bool
  openErrno : Nat

/-- Program state visible to the claims: the path registry, the paths armed
with the kqueue (their `udata` strings, in registration order), the control
stream, and the report lines written so far — each recorded as the
`(udata path, fflags)` pair its text is printed from (`report_text` below
gives the exact bytes). -/
@[ext]
structure MachineState where
  registry : Registry
  kqRegs : List String
  stream : ControlStream
  output : List (String × Nat)
deriving Repr, DecidableEq

/-- Result of running a piece of the program: still running with a new
state, or terminated through `err(3)` with an exit status and message. -/
inductive Outcome where
  | running (s : MachineState)
  | fatal (code : Nat) (msg : String) (s : MachineState)
deriving Repr, DecidableEq

/-- The state carried by an outcome (at `fatal`, the state at the moment
`err(3)` terminated the process). -/
def Outcome.state : Outcome → MachineState
  | .running s => s
  | .fatal _ _ s => s

/-- Whether the outcome is a fatal termination. -/
def Outcome.isFatal : Outcome → Bool
  | .running _ => false
  | .fatal _ _ _ => true

/-- The exit status of a fatal outcome (`0` for a running one). -/
def Outcome.exitCode : Outcome → Nat
  | .running _ => 0
  | .fatal code _ _ => code

/-- Function `register_path` (kqfm.c:83-95): open the path (on failure,
`err(errno, "couldn't open %s", path)`), then add an
`EVFILT_VNODE`/`ALL_FLAGS` kevent carrying the path string as `udata` (on
failure, `err(1, "couldn't monitor %s", path)`). -/
def register_path (env : Env) (s : MachineState) (path : String) : Outcome :=
  if env.canOpen path then
    if env.canWatch path then
      .running { s with kqRegs := s.kqRegs ++ [path] }
    else .fatal 1 ("couldn't monitor " ++ path) s
  else .fatal env.openErrno ("couldn't open " ++ path) s

theorem register_path_running (env : Env) (s : MachineState) (path : String)
    (s' : MachineState) (h : register_path env s path = .running s') :
    s' = { s with kqRegs := s.kqRegs ++ [path] } := by
  unfold register_path at h
  by_cases h1 : env.canOpen path = true
  · rw [if_pos h1] at h
    by_cases h2 : env.canWatch path = true
    · rw [if_pos h2] at h
      exact (Outcome.running.injEq _ _).mp h.symm ▸ rfl
    · rw [if_neg h2] at h
      exact absurd h (by simp)
  · rw [if_neg h1] at h
    exact absurd h (by simp)

theorem register_path_ok (env : Env) (s : MachineState) (path : String)
    (ho : env.canOpen path = true) (hw : env.canWatch path = true) :
    register_path env s path =
      .running { s with kqRegs := s.kqRegs ++ [path] } := by
  unfold register_path
  rw [if_pos ho, if_pos hw]

theorem register_path_badopen (env : Env) (s : MachineState) (path : String)
    (h : env.canOpen path = false) :
    register_path env s path =
      .fatal env.openErrno ("couldn't open " ++ path) s := by
  unfold register_path
  rw [if_neg (by rw [h]; simp)]

theorem register_path_badwatch (env : Env) (s : MachineState) (path : String)
    (ho : env.canOpen path = true) (h : env.canWatch path = false) :
    register_path env s path =
      .fatal 1 ("couldn't monitor " ++ path) s := by
  unfold register_path
  rw [if_pos ho, if_neg (by rw [h]; simp)]

theorem fgetln_some_shrinks (s : ControlStream) (line : List Char)
    (st : ControlStream) (h : fgetln s = (some line, st)) :
    st.remaining.length < s.remaining.length := by
  unfold fgetln at h
  by_cases hrem : s.remaining = []
  · rw [if_pos hrem] at h
    cases hend : s.ended <;> simp only [hend] at h <;> exact absurd h (by simp)
  · rw [if_neg hrem] at h
    have hpos : 0 < s.remaining.length := List.length_pos.mpr hrem
    cases hdrop : s.remaining.dropWhile (fun c => c != '\n') with
    | nil =>
      rw [hdrop] at h
      cases hend : s.ended <;> simp only [hend] at h
      · obtain ⟨-, h2⟩ := Prod.mk.injEq .. ▸ h
        rw [← h2]
        simpa using hpos
      · exact absurd h (by simp)
    | cons nl rest =>
      rw [hdrop] at h
      obtain ⟨-, h2⟩ := Prod.mk.injEq .. ▸ h
      rw [← h2]
      have hsplit := List.takeWhile_append_dropWhile (fun c => c != '\n') s.remaining
      have : s.remaining.length =
          (s.remaining.takeWhile (fun c => c != '\n')).length + (nl :: rest).length := by
        conv_lhs => rw [← hsplit, hdrop]
        simp
      simp only [List.length_cons] at this
      simp only []
      omega

/-- Function `register_paths` (kqfm.c:102-145): keep reading lines while bytes remain
to be consumed or EOF was signaled but not yet actually reached. For each
line: count its bytes, strip one trailing newline (`pathlen`), copy the path,
`insque` it into the registry (advancing `paths_head`, initialising
`paths_tail`), then arm it via `register_path`. `fgetln` returning `NULL`
means end-of-file (stop) or a read error (`err(1, "couldn't read input")`).
`malloc` failures are not modelled (allocation is assumed to succeed). -/
def register_paths (env : Env) (bytes_available : Nat) (eof_signaled : Bool)
    (bytes_read : Nat) (s : MachineState) : Outcome :=
  if bytes_read < bytes_available ∨ (eof_signaled = true ∧ s.stream.eofFlag = false) then
    match hfg : fgetln s.stream with
    | (none, st) =>
      if st.eofFlag then .running { s with stream := st }
      else .fatal 1 "couldn't read input" { s with stream := st }
    | (some line, st) =>
      let len := line.length
      let pathlen := if line.getLast? = some '\n' then len - 1 else len
      let path := String.mk (line.take pathlen)
      let s₁ : MachineState :=
        { s with registry := registry_append s.registry path, stream := st }
      match hrp : register_path env s₁ path with
      | .running s₂ =>
        register_paths env bytes_available eof_signaled (bytes_read + len) s₂
      | .fatal code msg s₂ => .fatal code msg s₂
  else .running s
termination_by s.stream.remaining.length
decreasing_by
  rw [register_path_running env s₁ path s₂ hrp]
  exact fgetln_some_shrinks s.stream line st hfg

/-! ### Event multiplexer / watcher loop -/

/-- One event returned by the blocking `kevent` wait in `watcher_loop`
(kqfm.c:197): either read-readiness of the control stream (`ident == in_fno`,
filter `EVFILT_READ`, with the reported byte count in `data` and the `EV_EOF`
flag), or a change on a watched path (filter `EVFILT_VNODE`, with the
registered path string echoed back as `udata` and the change bitmask in
`fflags`). -/
inductive KEvent where
  | inputReady (data : Nat) (eofSignaled : Bool)
  | vnodeChange (path : String) (fflags : Nat)
deriving Repr, DecidableEq

/-- One wakeup of the watcher loop (one iteration of kqfm.c:195-208):
either the wait call returned an event (with the value the `signal_caught`
flag has when it is tested at kqfm.c:201 — the `SIGUSR1` handler may have run
meanwhile), or it failed with `EINTR` because the diagnostic-trigger handler
interrupted it (the only installed handler, which sets `signal_caught`), or
it failed with some other errno. -/
inductive Wakeup where
  | ev (sigCaught : Bool) (e : KEvent)
  | eintr
  | waitErr
deriving Repr, DecidableEq

/-- Function `handle_event` (kqfm.c:168-178): render the event's fflags into a fresh
empty buffer and print `"<udata path>\t<flags>\n"` on the report stream. The
written line is recorded as its `(path, fflags)` pair. -/
def handle_event (s : MachineState) (path : String) (fflags : Nat) :
    MachineState :=
  { s with output := s.output ++ [(path, fflags)] }

/-- The exact bytes `handle_event`'s `fprintf(out, "%s\t%s\n", ...)` writes
for one recorded report entry. -/
def report_text (rec : String × Nat) : String :=
  rec.1 ++ "\t" ++ change_flags_to_msg rec.2 "" ++ "\n"

/-- One iteration of the body of `watcher_loop` (kqfm.c:195-208): a failed
wait is fatal unless the errno is `EINTR`; if `signal_caught` is set the
iteration is discarded (`continue`); otherwise the event is dispatched to
`register_paths` (control stream readable) or `handle_event` (watched path
changed). -/
def loop_step (env : Env) (s : MachineState) (w : Wakeup) : Outcome :=
  match w with
  | .eintr => .running s
  | .waitErr => .fatal 1 "error checking kqueue" s
  | .ev true _ => .running s
  | .ev false e =>
    match e with
    | .inputReady data eofSignaled => register_paths env data eofSignaled 0 s
    | .vnodeChange path fflags => .running (handle_event s path fflags)

/-- Run the watcher loop over a sequence of wakeups, stopping at a fatal
termination. -/
def loop_run (env : Env) (s : MachineState) : List Wakeup → Outcome
  | [] => .running s
  | w :: ws =>
    match loop_step env s w with
    | .running s' => loop_run env s' ws
    | out => out

/-- A wakeup the kernel can actually deliver in state `s`: a `vnodeChange`
event only ever carries the `udata` of a currently registered watch. -/
def kernelConsistent (s : MachineState) (w : Wakeup) : Prop :=
  match w with
  | .ev _ (.vnodeChange path _) => path ∈ s.kqRegs
  | _ => True

/-- A wakeup sequence the kernel can deliver from state `s`: every wakeup is
`kernelConsistent` with the state the loop has reached when it arrives. -/
def ValidRun (env : Env) (s : MachineState) : List Wakeup → Prop
  | [] => True
  | w :: ws =>
    kernelConsistent s w ∧
      (match loop_step env s w with
       | .running s' => ValidRun env s' ws
       | _ => True)

/-- The state at entry of `watcher_loop` (kqfm.c:180-194): empty registry, no
watches yet, the given control stream, nothing written. -/
def init_state (input : List Char) (ended : StreamEnd) : MachineState :=
  { registry := { nodes := [], paths_head := none, paths_tail := none },
    kqRegs := [],
    stream := { remaining := input, ended := ended, eofFlag := false },
    output := [] }

/-! ### `fgetln` computation lemmas -/

theorem takeWhile_append_all {α : Type} (p : α → Bool) (l₁ l₂ : List α)
    (h : ∀ c ∈ l₁, p c = true) :
    (l₁ ++ l₂).takeWhile p = l₁ ++ l₂.takeWhile p := by
  induction l₁ with
  | nil => simp
  | cons a l ih =>
    have ha : p a = true := h a (List.mem_cons_self a l)
    simp only [List.cons_append, List.takeWhile_cons, ha, if_true]
    rw [ih (fun c hc => h c (List.mem_cons_of_mem a hc))]

theorem dropWhile_append_all {α : Type} (p : α → Bool) (l₁ l₂ : List α)
    (h : ∀ c ∈ l₁, p c = true) :
    (l₁ ++ l₂).dropWhile p = l₂.dropWhile p := by
  induction l₁ with
  | nil => simp
  | cons a l ih =>
    have ha : p a = true := h a (List.mem_cons_self a l)
    simp only [List.cons_append, List.dropWhile_cons, ha, if_true]
    exact ih (fun c hc => h c (List.mem_cons_of_mem a hc))

theorem no_newline_all (pd : List Char) (hpd : '\n' ∉ pd) :
    ∀ c ∈ pd, (c != '\n') = true := by
  intro c hc
  have : c ≠ '\n' := fun he => hpd (he ▸ hc)
  simpa using this

theorem fgetln_newline (s : ControlStream) (pd rest : List Char)
    (hrem : s.remaining = pd ++ '\n' :: rest) (hpd : '\n' ∉ pd) :
    fgetln s = (some (pd ++ ['\n']), { s with remaining := rest }) := by
  have hne : s.remaining ≠ [] := by rw [hrem]; simp
  have hdrop : s.remaining.dropWhile (fun c => c != '\n') = '\n' :: rest := by
    rw [hrem, dropWhile_append_all _ _ _ (no_newline_all pd hpd)]
    simp [List.dropWhile_cons]
  have htake : s.remaining.takeWhile (fun c => c != '\n') = pd := by
    rw [hrem, takeWhile_append_all _ _ _ (no_newline_all pd hpd)]
    simp [List.takeWhile_cons]
  unfold fgetln
  simp only [if_neg hne, hdrop, htake]

theorem fgetln_lastline (s : ControlStream)
    (hne : s.remaining ≠ []) (hpd : '\n' ∉ s.remaining)
    (hend : s.ended = .eof) :
    fgetln s = (some s.remaining,
      { s with remaining := [], eofFlag := true }) := by
  have hall := no_newline_all s.remaining hpd
  have hdrop : s.remaining.dropWhile (fun c => c != '\n') = [] := by
    rw [List.dropWhile_eq_nil_iff]
    exact fun c hc => hall c hc
  have htake : s.remaining.takeWhile (fun c => c != '\n') = s.remaining := by
    rw [List.takeWhile_eq_self_iff]
    exact fun c hc => hall c hc
  unfold fgetln
  simp only [if_neg hne, hdrop, htake, hend]

theorem fgetln_exhausted_eof (s : ControlStream)
    (hrem : s.remaining = []) (hend : s.ended = .eof) :
    fgetln s = (none, { s with eofFlag := true }) := by
  unfold fgetln
  simp only [if_pos hrem, hend]

theorem fgetln_exhausted_err (s : ControlStream)
    (hrem : s.remaining = []) (hend : s.ended = .readError) :
    fgetln s = (none, s) := by
  unfold fgetln
  simp only [if_pos hrem, hend]

/-! ### `register_paths` stepping lemmas -/

theorem register_paths_stop (env : Env) (ba : Nat) (eof : Bool) (br : Nat)
    (s : MachineState)
    (h : ¬ (br < ba ∨ (eof = true ∧ s.stream.eofFlag = false))) :
    register_paths env ba eof br s = .running s := by
  rw [register_paths, if_neg h]

theorem register_paths_eof_break (env : Env) (ba : Nat) (eof : Bool) (br : Nat)
    (s : MachineState)
    (hrem : s.stream.remaining = []) (hend : s.stream.ended = .eof)
    (hcond : br < ba ∨ (eof = true ∧ s.stream.eofFlag = false)) :
    register_paths env ba eof br s =
      .running { s with stream := { s.stream with eofFlag := true } } := by
  rw [register_paths, if_pos hcond]
  have hfg := fgetln_exhausted_eof s.stream hrem hend
  split
  · next st heq =>
    rw [hfg] at heq
    obtain ⟨-, h2⟩ := Prod.mk.injEq .. ▸ heq
    rw [← h2]
    simp
  · next line st heq =>
    rw [hfg] at heq
    exact absurd heq (by simp)

theorem register_paths_read_error (env : Env) (ba : Nat) (eof : Bool) (br : Nat)
    (s : MachineState)
    (hrem : s.stream.remaining = []) (hend : s.stream.ended = .readError)
    (hflag : s.stream.eofFlag = false)
    (hcond : br < ba ∨ (eof = true ∧ s.stream.eofFlag = false)) :
    register_paths env ba eof br s = .fatal 1 "couldn't read input" s := by
  rw [register_paths, if_pos hcond]
  have hfg := fgetln_exhausted_err s.stream hrem hend
  split
  · next st heq =>
    rw [hfg] at heq
    obtain ⟨-, h2⟩ := Prod.mk.injEq .. ▸ heq
    rw [← h2, if_neg (by rw [hflag]; simp)]
  · next line st heq =>
    rw [hfg] at heq
    exact absurd heq (by simp)

theorem take_newline_line (pd : List Char) :
    List.take ((pd ++ ['\n']).length - 1) (pd ++ ['\n']) = pd := by
  have : (pd ++ ['\n']).length - 1 = pd.length := by simp
  rw [this, List.take_left]

theorem pathlen_newline (pd : List Char) :
    (if (pd ++ ['\n']).getLast? = some '\n' then (pd ++ ['\n']).length - 1
     else (pd ++ ['\n']).length) = pd.length := by
  rw [List.getLast?_concat, if_pos rfl]
  simp

theorem pathlen_lastline (pd : List Char) (hne : pd ≠ []) (hpd : '\n' ∉ pd) :
    (if pd.getLast? = some '\n' then pd.length - 1 else pd.length) =
      pd.length := by
  rw [if_neg]
  rw [List.getLast?_eq_getLast_of_ne_nil hne]
  intro hcontra
  injection hcontra with hc
  exact hpd (hc ▸ List.getLast_mem hne)

theorem register_paths_step_line_ok (env : Env) (ba : Nat) (eof : Bool)
    (br : Nat) (s : MachineState) (pd rest : List Char)
    (hrem : s.stream.remaining = pd ++ '\n' :: rest) (hpd : '\n' ∉ pd)
    (hopen : env.canOpen (String.mk pd) = true)
    (hwatch : env.canWatch (String.mk pd) = true)
    (hcond : br < ba ∨ (eof = true ∧ s.stream.eofFlag = false)) :
    register_paths env ba eof br s =
      register_paths env ba eof (br + (pd.length + 1))
        { s with registry := registry_append s.registry (String.mk pd),
                 kqRegs := s.kqRegs ++ [String.mk pd],
                 stream := { s.stream with remaining := rest } } := by
  rw [register_paths, if_pos hcond]
  have hfg := fgetln_newline s.stream pd rest hrem hpd
  split
  · next st heq =>
    rw [hfg] at heq
    exact absurd heq (by simp)
  · next line st heq =>
    rw [hfg] at heq
    obtain ⟨h1, h2⟩ := Prod.mk.injEq .. ▸ heq
    have hline : line = pd ++ ['\n'] := by
      injection h1 with h1'
      exact h1'.symm
    subst hline
    rw [← h2]
    split
    · next heq2 =>
      dsimp only
      split
      · next s₂ heq3 =>
        rw [take_newline_line,
          register_path_ok env _ _ hopen hwatch] at heq3
        injection heq3 with heq3'
        rw [← heq3']
        have : (pd ++ ['\n']).length = pd.length + 1 := by simp
        rw [this]
      · next code msg s₂ heq3 =>
        rw [take_newline_line,
          register_path_ok env _ _ hopen hwatch] at heq3
        exact absurd heq3 (by simp)
    · next heq2 =>
      exact absurd (List.getLast?_concat pd) heq2

theorem register_paths_step_line_badopen (env : Env) (ba : Nat) (eof : Bool)
    (br : Nat) (s : MachineState) (pd rest : List Char)
    (hrem : s.stream.remaining = pd ++ '\n' :: rest) (hpd : '\n' ∉ pd)
    (hopen : env.canOpen (String.mk pd) = false)
    (hcond : br < ba ∨ (eof = true ∧ s.stream.eofFlag = false)) :
    register_paths env ba eof br s =
      .fatal env.openErrno ("couldn't open " ++ String.mk pd)
        { s with registry := registry_append s.registry (String.mk pd),
                 stream := { s.stream with remaining := rest } } := by
  rw [register_paths, if_pos hcond]
  have hfg := fgetln_newline s.stream pd rest hrem hpd
  split
  · next st heq =>
    rw [hfg] at heq
    exact absurd heq (by simp)
  · next line st heq =>
    rw [hfg] at heq
    obtain ⟨h1, h2⟩ := Prod.mk.injEq .. ▸ heq
    have hline : line = pd ++ ['\n'] := by
      injection h1 with h1'
      exact h1'.symm
    subst hline
    rw [← h2]
    split
    · next heq2 =>
      dsimp only
      split
      · next s₂ heq3 =>
        rw [take_newline_line,
          register_path_badopen env _ _ hopen] at heq3
        exact absurd heq3 (by simp)
      · next code msg s₂ heq3 =>
        rw [take_newline_line,
          register_path_badopen env _ _ hopen] at heq3
        injection heq3 with hc hm hs2
        rw [← hc, ← hm, ← hs2]
    · next heq2 =>
      exact absurd (List.getLast?_concat pd) heq2

theorem register_paths_step_lastline_ok (env : Env) (ba : Nat) (eof : Bool)
    (br : Nat) (s : MachineState) (pd : List Char)
    (hrem : s.stream.remaining = pd) (hne : pd ≠ []) (hpd : '\n' ∉ pd)
    (hend : s.stream.ended = .eof)
    (hopen : env.canOpen (String.mk pd) = true)
    (hwatch : env.canWatch (String.mk pd) = true)
    (hcond : br < ba ∨ (eof = true ∧ s.stream.eofFlag = false)) :
    register_paths env ba eof br s =
      register_paths env ba eof (br + pd.length)
        { s with registry := registry_append s.registry (String.mk pd),
                 kqRegs := s.kqRegs ++ [String.mk pd],
                 stream := { s.stream with remaining := [], eofFlag := true } } := by
  rw [register_paths, if_pos hcond]
  have hfg := fgetln_lastline s.stream (by rw [hrem]; exact hne)
    (by rw [hrem]; exact hpd) hend
  rw [hrem] at hfg
  split
  · next st heq =>
    rw [hfg] at heq
    exact absurd heq (by simp)
  · next line st heq =>
    rw [hfg] at heq
    obtain ⟨h1, h2⟩ := Prod.mk.injEq .. ▸ heq
    have hline : line = pd := by
      injection h1 with h1'
      exact h1'.symm
    subst hline
    rw [← h2]
    split
    · next heq2 =>
      rw [List.getLast?_eq_getLast_of_ne_nil hne] at heq2
      injection heq2 with hc
      exact absurd (hc ▸ List.getLast_mem hne) hpd
    · next heq2 =>
      dsimp only
      split
      · next s₂ heq3 =>
        rw [List.take_length,
          register_path_ok env _ _ hopen hwatch] at heq3
        injection heq3 with heq3'
        rw [← heq3']
      · next code msg s₂ heq3 =>
        rw [List.take_length,
          register_path_ok env _ _ hopen hwatch] at heq3
        exact absurd heq3 (by simp)

/-! ### Feeding whole line sequences -/

/-- The control-stream bytes encoding one path per newline-terminated line. -/
def join_lines (ps : List String) : List Char :=
  match ps with
  | [] => []
  | p :: rest => p.data ++ '\n' :: join_lines rest

/-- A list of paths that are plain lines (no embedded newline) and that the
environment can open and watch. -/
def GoodPaths (env : Env) (ps : List String) : Prop :=
  ∀ p ∈ ps, '\n' ∉ p.data ∧ env.canOpen p = true ∧ env.canWatch p = true

theorem foldl_registry_append_mk_chain (ps : List String) :
    ∀ (qs : List String),
      ps.foldl registry_append (mk_chain qs) = mk_chain (qs ++ ps) := by
  induction ps with
  | nil => intro qs; simp [List.foldl_nil]
  | cons p rest ih =>
    intro qs
    rw [List.foldl_cons, registry_append_mk_chain, ih, List.append_assoc]
    rfl

theorem register_paths_feeds_all (env : Env) (ps : List String) :
    ∀ (br : Nat) (s : MachineState),
      GoodPaths env ps →
      s.stream.remaining = join_lines ps →
      register_paths env (br + (join_lines ps).length) false br s =
        .running { s with
            registry := ps.foldl registry_append s.registry,
            kqRegs := s.kqRegs ++ ps,
            stream := { s.stream with remaining := [] } } := by
  induction ps with
  | nil =>
    intro br s hgood hrem
    rw [register_paths_stop]
    · have hrem0 : s.stream.remaining = [] := by
        rw [hrem]; rfl
      have hstream : ({ s.stream with remaining := [] } : ControlStream) =
          s.stream := by
        apply ControlStream.ext <;> simp [hrem0]
      rw [hstream]
      simp
    · simp [join_lines]
  | cons p rest ih =>
    intro br s hgood hrem
    obtain ⟨hp, hrest⟩ : ('\n' ∉ p.data ∧ env.canOpen p = true ∧
        env.canWatch p = true) ∧ GoodPaths env rest :=
      ⟨hgood p (List.mem_cons_self p rest),
       fun q hq => hgood q (List.mem_cons_of_mem p hq)⟩
    have hrem' : s.stream.remaining = p.data ++ '\n' :: join_lines rest := by
      rw [hrem]; rfl
    have hlen : (join_lines (p :: rest)).length =
        p.data.length + 1 + (join_lines rest).length := by
      show (p.data ++ '\n' :: join_lines rest).length = _
      simp
      omega
    have hcond : br < br + (join_lines (p :: rest)).length ∨
        (false = true ∧ s.stream.eofFlag = false) := by
      left
      rw [hlen]
      omega
    rw [register_paths_step_line_ok env _ false br s p.data (join_lines rest)
      hrem' hp.1 hp.2.1 hp.2.2 hcond]
    have hba : br + (join_lines (p :: rest)).length =
        (br + (p.data.length + 1)) + (join_lines rest).length := by
      rw [hlen]; omega
    rw [hba, ih (br + (p.data.length + 1)) _ hrest (by rfl)]
    simp only [List.foldl_cons]
    congr 1
    simp [List.append_assoc]

theorem register_path_running_inv (env : Env) (s : MachineState)
    (path : String) (s' : MachineState)
    (h : register_path env s path = .running s') :
    s' = { s with kqRegs := s.kqRegs ++ [path] } ∧
      env.canOpen path = true ∧ env.canWatch path = true := by
  unfold register_path at h
  by_cases h1 : env.canOpen path = true
  · rw [if_pos h1] at h
    by_cases h2 : env.canWatch path = true
    · rw [if_pos h2] at h
      injection h with h'
      exact ⟨h'.symm, h1, h2⟩
    · rw [if_neg h2] at h
      exact absurd h (by simp)
  · rw [if_neg h1] at h
    exact absurd h (by simp)

theorem register_path_fatal_inv (env : Env) (s : MachineState)
    (path : String) (code : Nat) (msg : String) (s' : MachineState)
    (h : register_path env s path = .fatal code msg s') :
    s' = s ∧ (env.canOpen path = false ∨ env.canWatch path = false) := by
  unfold register_path at h
  by_cases h1 : env.canOpen path = true
  · rw [if_pos h1] at h
    by_cases h2 : env.canWatch path = true
    · rw [if_pos h2] at h
      exact absurd h (by simp)
    · rw [if_neg h2] at h
      injection h with hc hm hs
      exact ⟨hs.symm, Or.inr (Bool.not_eq_true _ ▸ h2)⟩
  · rw [if_neg h1] at h
    injection h with hc hm hs
    exact ⟨hs.symm, Or.inl (Bool.not_eq_true _ ▸ h1)⟩

theorem register_paths_unfold_none (env : Env) (ba : Nat) (eof : Bool)
    (br : Nat) (s : MachineState) (st : ControlStream)
    (hfg : fgetln s.stream = (none, st))
    (hcond : br < ba ∨ (eof = true ∧ s.stream.eofFlag = false)) :
    register_paths env ba eof br s =
      if st.eofFlag = true then .running { s with stream := st }
      else .fatal 1 "couldn't read input" { s with stream := st } := by
  rw [register_paths, if_pos hcond]
  split
  · next st' heq =>
    rw [hfg] at heq
    obtain ⟨-, h2⟩ := Prod.mk.injEq .. ▸ heq
    rw [← h2]
  · next line st' heq =>
    rw [hfg] at heq
    exact absurd heq (by simp)

theorem register_paths_unfold_some_nl (env : Env) (ba : Nat) (eof : Bool)
    (br : Nat) (s : MachineState) (line : List Char) (st : ControlStream)
    (hfg : fgetln s.stream = (some line, st))
    (hl : line.getLast? = some '\n')
    (hcond : br < ba ∨ (eof = true ∧ s.stream.eofFlag = false)) :
    register_paths env ba eof br s =
      match register_path env
          { s with
              registry := registry_append s.registry
                (String.mk (List.take (line.length - 1) line)),
              stream := st }
          (String.mk (List.take (line.length - 1) line)) with
      | .running s₂ => register_paths env ba eof (br + line.length) s₂
      | .fatal code msg s₂ => .fatal code msg s₂ := by
  rw [register_paths, if_pos hcond]
  split
  · next st' heq =>
    rw [hfg] at heq
    exact absurd heq (by simp)
  · next line' st' heq =>
    rw [hfg] at heq
    obtain ⟨h1, h2⟩ := Prod.mk.injEq .. ▸ heq
    injection h1 with h1'
    subst h1'
    subst h2
    split
    · next hpl =>
      dsimp only
      split
      · next s₂ heq2 =>
        split
        · next s₃ heq3 =>
          rw [heq2] at heq3
          injection heq3 with h'
          first
          | rw [h']
          | rw [← h']
        · next c2 m2 s₃ heq3 =>
          rw [heq2] at heq3
          exact absurd heq3 (by simp)
      · next c m s₂ heq2 =>
        split
        · next s₃ heq3 =>
          rw [heq2] at heq3
          exact absurd heq3 (by simp)
        · next c2 m2 s₃ heq3 =>
          rw [heq2] at heq3
          first
          | exact heq3
          | exact heq3.symm
    · next hpl => exact absurd hl hpl

theorem register_paths_unfold_some_raw (env : Env) (ba : Nat) (eof : Bool)
    (br : Nat) (s : MachineState) (line : List Char) (st : ControlStream)
    (hfg : fgetln s.stream = (some line, st))
    (hl : line.getLast? ≠ some '\n')
    (hcond : br < ba ∨ (eof = true ∧ s.stream.eofFlag = false)) :
    register_paths env ba eof br s =
      match register_path env
          { s with
              registry := registry_append s.registry (String.mk line),
              stream := st }
          (String.mk line) with
      | .running s₂ => register_paths env ba eof (br + line.length) s₂
      | .fatal code msg s₂ => .fatal code msg s₂ := by
  rw [register_paths, if_pos hcond]
  split
  · next st' heq =>
    rw [hfg] at heq
    exact absurd heq (by simp)
  · next line' st' heq =>
    rw [hfg] at heq
    obtain ⟨h1, h2⟩ := Prod.mk.injEq .. ▸ heq
    injection h1 with h1'
    subst h1'
    subst h2
    split
    · next hpl => exact absurd hpl hl
    · next hpl =>
      dsimp only
      rw [show List.take line.length line = line from List.take_length line]
      split
      · next s₂ heq2 =>
        split
        · next s₃ heq3 =>
          rw [heq2] at heq3
          injection heq3 with h'
          first
          | rw [h']
          | rw [← h']
        · next c2 m2 s₃ heq3 =>
          rw [heq2] at heq3
          exact absurd heq3 (by simp)
      · next c m s₂ heq2 =>
        split
        · next s₃ heq3 =>
          rw [heq2] at heq3
          exact absurd heq3 (by simp)
        · next c2 m2 s₃ heq3 =>
          rw [heq2] at heq3
          first
          | exact heq3
          | exact heq3.symm

theorem register_paths_output (env : Env) (ba : Nat) (eof : Bool) :
    ∀ (n : Nat) (br : Nat) (s : MachineState),
      s.stream.remaining.length ≤ n →
      (register_paths env ba eof br s).state.output = s.output := by
  intro n
  induction n with
  | zero =>
    intro br s hn
    by_cases hcond : br < ba ∨ (eof = true ∧ s.stream.eofFlag = false)
    · rcases hfg : fgetln s.stream with ⟨o, st⟩
      cases o with
      | none =>
        rw [register_paths_unfold_none env ba eof br s st hfg hcond]
        split <;> rfl
      | some line =>
        exact absurd (fgetln_some_shrinks s.stream line st hfg) (by omega)
    · rw [register_paths_stop env ba eof br s hcond]
      rfl
  | succ n ih =>
    intro br s hn
    by_cases hcond : br < ba ∨ (eof = true ∧ s.stream.eofFlag = false)
    · rcases hfg : fgetln s.stream with ⟨o, st⟩
      cases o with
      | none =>
        rw [register_paths_unfold_none env ba eof br s st hfg hcond]
        split <;> rfl
      | some line =>
        have hshrink := fgetln_some_shrinks s.stream line st hfg
        by_cases hl : line.getLast? = some '\n'
        · rw [register_paths_unfold_some_nl env ba eof br s line st hfg hl hcond]
          split
          · next s₂ heq2 =>
            obtain ⟨hs₂, -, -⟩ := register_path_running_inv env _ _ s₂ heq2
            rw [ih (br + line.length) s₂ (by rw [hs₂]; simpa using by omega)]
            rw [hs₂]
          · next code msg s₂ heq2 =>
            obtain ⟨hs₂, -⟩ := register_path_fatal_inv env _ _ code msg s₂ heq2
            rw [hs₂]
            rfl
        · rw [register_paths_unfold_some_raw env ba eof br s line st hfg hl hcond]
          split
          · next s₂ heq2 =>
            obtain ⟨hs₂, -, -⟩ := register_path_running_inv env _ _ s₂ heq2
            rw [ih (br + line.length) s₂ (by rw [hs₂]; simpa using by omega)]
            rw [hs₂]
          · next code msg s₂ heq2 =>
            obtain ⟨hs₂, -⟩ := register_path_fatal_inv env _ _ code msg s₂ heq2
            rw [hs₂]
            rfl
    · rw [register_paths_stop env ba eof br s hcond]
      rfl

/-- Registered watches only ever gain paths the environment can open and
watch: a path failing either call never enters `kqRegs`. -/
theorem register_paths_no_bad_reg (env : Env) (ba : Nat) (eof : Bool)
    (p : String) (hbad : env.canOpen p = false ∨ env.canWatch p = false) :
    ∀ (n : Nat) (br : Nat) (s : MachineState),
      s.stream.remaining.length ≤ n → p ∉ s.kqRegs →
      p ∉ (register_paths env ba eof br s).state.kqRegs := by
  intro n
  induction n with
  | zero =>
    intro br s hn hp
    by_cases hcond : br < ba ∨ (eof = true ∧ s.stream.eofFlag = false)
    · rcases hfg : fgetln s.stream with ⟨o, st⟩
      cases o with
      | none =>
        rw [register_paths_unfold_none env ba eof br s st hfg hcond]
        split <;> exact hp
      | some line =>
        exact absurd (fgetln_some_shrinks s.stream line st hfg) (by omega)
    · rw [register_paths_stop env ba eof br s hcond]
      exact hp
  | succ n ih =>
    intro br s hn hp
    by_cases hcond : br < ba ∨ (eof = true ∧ s.stream.eofFlag = false)
    · rcases hfg : fgetln s.stream with ⟨o, st⟩
      cases o with
      | none =>
        rw [register_paths_unfold_none env ba eof br s st hfg hcond]
        split <;> exact hp
      | some line =>
        have hshrink := fgetln_some_shrinks s.stream line st hfg
        have hstep : ∀ (path : String) (s₂ : MachineState),
            register_path env
              { s with registry := registry_append s.registry path, stream := st }
              path = .running s₂ →
            p ∉ (register_paths env ba eof (br + line.length) s₂).state.kqRegs := by
          intro path s₂ heq2
          obtain ⟨hs₂, hopen, hwatch⟩ :=
            register_path_running_inv env _ _ s₂ heq2
          have hne : p ≠ path := by
            intro he
            cases hbad with
            | inl hb => rw [he, hopen] at hb; cases hb
            | inr hb => rw [he, hwatch] at hb; cases hb
          refine ih (br + line.length) s₂ ?_ ?_
          · rw [hs₂]
            simpa using by omega
          · rw [hs₂]
            simp [hp, hne]
        by_cases hl : line.getLast? = some '\n'
        · rw [register_paths_unfold_some_nl env ba eof br s line st hfg hl hcond]
          split
          · next s₂ heq2 => exact hstep _ s₂ heq2
          · next code msg s₂ heq2 =>
            obtain ⟨hs₂, -⟩ := register_path_fatal_inv env _ _ code msg s₂ heq2
            rw [hs₂]
            exact hp
        · rw [register_paths_unfold_some_raw env ba eof br s line st hfg hl hcond]
          split
          · next s₂ heq2 => exact hstep _ s₂ heq2
          · next code msg s₂ heq2 =>
            obtain ⟨hs₂, -⟩ := register_path_fatal_inv env _ _ code msg s₂ heq2
            rw [hs₂]
            exact hp
    · rw [register_paths_stop env ba eof br s hcond]
      exact hp

/-- Outcome-level statement of the registry/kqueue agreement: at a running
state the two collections list the same paths (the registry is the
well-formed chain over exactly the armed paths); at a fatal state either they
agree or the registry holds exactly one extra path — one the environment
refused to open or watch. -/
def SyncedOutcome (env : Env) (o : Outcome) : Prop :=
  match o with
  | .running s' => s'.registry = mk_chain s'.kqRegs
  | .fatal _ _ s' =>
    s'.registry = mk_chain s'.kqRegs ∨
      ∃ q, s'.registry = mk_chain (s'.kqRegs ++ [q]) ∧
        (env.canOpen q = false ∨ env.canWatch q = false)

theorem register_paths_sync (env : Env) (ba : Nat) (eof : Bool) :
    ∀ (n : Nat) (br : Nat) (s : MachineState),
      s.stream.remaining.length ≤ n →
      s.registry = mk_chain s.kqRegs →
      SyncedOutcome env (register_paths env ba eof br s) := by
  intro n
  induction n with
  | zero =>
    intro br s hn hreg
    by_cases hcond : br < ba ∨ (eof = true ∧ s.stream.eofFlag = false)
    · rcases hfg : fgetln s.stream with ⟨o, st⟩
      cases o with
      | none =>
        rw [register_paths_unfold_none env ba eof br s st hfg hcond]
        split
        · exact hreg
        · exact Or.inl hreg
      | some line =>
        exact absurd (fgetln_some_shrinks s.stream line st hfg) (by omega)
    · rw [register_paths_stop env ba eof br s hcond]
      exact hreg
  | succ n ih =>
    intro br s hn hreg
    by_cases hcond : br < ba ∨ (eof = true ∧ s.stream.eofFlag = false)
    · rcases hfg : fgetln s.stream with ⟨o, st⟩
      cases o with
      | none =>
        rw [register_paths_unfold_none env ba eof br s st hfg hcond]
        split
        · exact hreg
        · exact Or.inl hreg
      | some line =>
        have hshrink := fgetln_some_shrinks s.stream line st hfg
        have hstep : ∀ (path : String) (s₂ : MachineState),
            register_path env
              { s with registry := registry_append s.registry path, stream := st }
              path = .running s₂ →
            SyncedOutcome env (register_paths env ba eof (br + line.length) s₂) := by
          intro path s₂ heq2
          obtain ⟨hs₂, -, -⟩ := register_path_running_inv env _ _ s₂ heq2
          refine ih (br + line.length) s₂ ?_ ?_
          · rw [hs₂]
            simpa using by omega
          · rw [hs₂]
            show registry_append s.registry path = mk_chain (s.kqRegs ++ [path])
            rw [hreg, registry_append_mk_chain]
        have hfatal : ∀ (path : String) (code : Nat) (msg : String)
            (s₂ : MachineState),
            register_path env
              { s with registry := registry_append s.registry path, stream := st }
              path = .fatal code msg s₂ →
            SyncedOutcome env (Outcome.fatal code msg s₂) := by
          intro path code msg s₂ heq2
          obtain ⟨hs₂, hb⟩ := register_path_fatal_inv env _ _ code msg s₂ heq2
          refine Or.inr ⟨path, ?_, hb⟩
          rw [hs₂]
          show registry_append s.registry path = mk_chain (s.kqRegs ++ [path])
          rw [hreg, registry_append_mk_chain]
        by_cases hl : line.getLast? = some '\n'
        · rw [register_paths_unfold_some_nl env ba eof br s line st hfg hl hcond]
          split
          · next s₂ heq2 => exact hstep _ s₂ heq2
          · next code msg s₂ heq2 => exact hfatal _ code msg s₂ heq2
        · rw [register_paths_unfold_some_raw env ba eof br s line st hfg hl hcond]
          split
          · next s₂ heq2 => exact hstep _ s₂ heq2
          · next code msg s₂ heq2 => exact hfatal _ code msg s₂ heq2
    · rw [register_paths_stop env ba eof br s hcond]
      exact hreg

/-! ### Watcher-loop invariants -/

theorem loop_run_cons (env : Env) (s : MachineState) (w : Wakeup)
    (ws : List Wakeup) :
    loop_run env s (w :: ws) =
      match loop_step env s w with
      | .running s' => loop_run env s' ws
      | out => out := rfl

/-- A path the environment cannot open (or cannot watch) is never armed and
never reported: over any kernel-consistent run, it stays outside `kqRegs` and
no report line is recorded for it. -/
theorem loop_run_no_bad_path (env : Env) (p : String)
    (hbad : env.canOpen p = false ∨ env.canWatch p = false) :
    ∀ (ws : List Wakeup) (s : MachineState),
      ValidRun env s ws → p ∉ s.kqRegs →
      (∀ r ∈ s.output, r.1 ≠ p) →
      p ∉ (loop_run env s ws).state.kqRegs ∧
        (∀ r ∈ (loop_run env s ws).state.output, r.1 ≠ p) := by
  intro ws
  induction ws with
  | nil => intro s hv hk ho; exact ⟨hk, ho⟩
  | cons w rest ih =>
    intro s hv hk ho
    obtain ⟨hw, hv'⟩ := hv
    cases w with
    | eintr => exact ih s hv' hk ho
    | waitErr => exact ⟨hk, ho⟩
    | ev sig e =>
      cases sig with
      | true => exact ih s hv' hk ho
      | false =>
        cases e with
        | vnodeChange q f =>
          have hq : q ∈ s.kqRegs := hw
          have hne : q ≠ p := fun he => hk (he ▸ hq)
          refine ih (handle_event s q f) hv' hk ?_
          intro r hr
          rcases List.mem_append.mp hr with hr1 | hr2
          · exact ho r hr1
          · rw [List.mem_singleton.mp hr2]
            exact hne
        | inputReady data eofSig =>
          have hk' := register_paths_no_bad_reg env data eofSig p hbad
            s.stream.remaining.length 0 s (le_refl _) hk
          have ho' := register_paths_output env data eofSig
            s.stream.remaining.length 0 s (le_refl _)
          rw [loop_run_cons]
          rcases hout : register_paths env data eofSig 0 s with s' | ⟨code, msg, s'⟩
          · rw [hout] at hk' ho'
            simp only [Outcome.state] at hk' ho'
            simp only [loop_step, hout] at hv' ⊢
            refine ih s' hv' hk' ?_
            intro r hr
            rw [ho'] at hr
            exact ho r hr
          · rw [hout] at hk' ho'
            simp only [Outcome.state] at hk' ho'
            simp only [loop_step, hout]
            refine ⟨hk', ?_⟩
            intro r hr
            simp only [Outcome.state] at hr
            rw [ho'] at hr
            exact ho r hr

/-- The registry/kqueue agreement carried through whole runs of the watcher
loop: from any state where the registry is the well-formed chain over the
armed paths, every reachable outcome is `SyncedOutcome`. -/
theorem loop_run_sync (env : Env) :
    ∀ (ws : List Wakeup) (s : MachineState),
      s.registry = mk_chain s.kqRegs →
      SyncedOutcome env (loop_run env s ws) := by
  intro ws
  induction ws with
  | nil => intro s hreg; exact hreg
  | cons w rest ih =>
    intro s hreg
    rw [loop_run_cons]
    cases w with
    | eintr => exact ih s hreg
    | waitErr => exact Or.inl hreg
    | ev sig e =>
      cases sig with
      | true => exact ih s hreg
      | false =>
        cases e with
        | vnodeChange q f => exact ih (handle_event s q f) hreg
        | inputReady data eofSig =>
          have hsync := register_paths_sync env data eofSig
            s.stream.remaining.length 0 s (le_refl _) hreg
          rcases hout : register_paths env data eofSig 0 s with s' | ⟨code, msg, s'⟩
          · rw [hout] at hsync
            simp only [loop_step, hout]
            exact ih s' hsync
          · rw [hout] at hsync
            simp only [loop_step, hout]
            exact hsync

/-! ### Claim theorems -/

/-- An environment in which every `open` and every `kevent` registration
succeeds. -/
def env_all : Env :=
  { canOpen := fun _ => true, canWatch := fun _ => true, openErrno := 2 }

/-- An environment in which no path can be opened (`errno` = `ENOENT` = 2). -/
def env_noopen : Env :=
  { canOpen := fun _ => false, canWatch := fun _ => true, openErrno := 2 }

/-- C2: for every bitmask, `change_flags_to_msg` (from the empty buffer its
callers supply) renders exactly the labels of the set bits among the seven
known kinds, comma-joined in the fixed table order DELETE, WRITE, EXTEND,
ATTRIB, LINK, RENAME, REVOKE (`render_spec`, the spec-side definition); the
empty bitmask renders as the empty string, and WRITE|DELETE renders
"DELETE,WRITE", never "WRITE,DELETE". -/
theorem C2_render_table_order (flags : Nat) :
    change_flags_to_msg flags "" = render_spec flags ∧
    change_flags_to_msg 0 "" = "" ∧
    change_flags_to_msg (NOTE_WRITE ||| NOTE_DELETE) "" = "DELETE,WRITE" ∧
    change_flags_to_msg (NOTE_WRITE ||| NOTE_DELETE) "" ≠ "WRITE,DELETE" := by
  refine ⟨change_flags_to_msg_empty_buf flags, by decide, by decide, by decide⟩

/-- C8: the renderer is deterministic and has no hidden mutable state: in any
two runs, positions carrying equal bitmasks render byte-identical strings,
and within one run the rendering at a position depends only on the bitmask at
that position, not on the render history. -/
theorem C8_render_deterministic :
    (∀ (ms₁ ms₂ : List Nat) (i : Nat), ms₁.get? i = ms₂.get? i →
      (render_run ms₁).get? i = (render_run ms₂).get? i) ∧
    (∀ (ms : List Nat) (i j : Nat), ms.get? i = ms.get? j →
      (render_run ms).get? i = (render_run ms).get? j) := by
  constructor
  · intro ms₁ ms₂ i h
    simp only [render_run, List.get?_map, h]
  · intro ms i j h
    simp only [render_run, List.get?_map, h]

theorem C8_render_deterministic_witness :
    (([3, 1] : List Nat).get? 0 = ([3] : List Nat).get? 0 ∧
      (render_run [3, 1]).get? 0 = (render_run [3]).get? 0) ∧
    (([2, 7, 2] : List Nat).get? 0 = ([2, 7, 2] : List Nat).get? 2 ∧
      (render_run [2, 7, 2]).get? 0 = (render_run [2, 7, 2]).get? 2) :=
  ⟨⟨by decide, C8_render_deterministic.1 [3, 1] [3] 0 (by decide)⟩,
   ⟨by decide, C8_render_deterministic.2 [2, 7, 2] 0 2 (by decide)⟩⟩

/-- C9: bits outside the seven known change kinds contribute nothing to the
rendering and never cause an error: rendering any bitmask equals rendering
its restriction to `ALL_FLAGS` (the union of the seven table bits), for any
buffer. -/
theorem C9_unknown_bits_ignored (m : Nat) (buf : String) :
    change_flags_to_msg m buf = change_flags_to_msg (m &&& ALL_FLAGS) buf := by
  unfold change_flags_to_msg
  refine change_flags_loop_congr m (m &&& ALL_FLAGS) flag_descs ?_ buf false
  intro d hd
  fin_cases hd <;> exact (and_mask_restrict _ m (by decide)).symm

/-- C1: feeding a sequence of N valid path lines (newline-terminated, each
openable and watchable) on the control stream creates exactly N watch
registrations, and iterating the registry as the diagnostic dump does yields
exactly those N path strings, oldest-registered first, in submission order. -/
theorem C1_registrations_and_dump_order (env : Env) (ps : List String)
    (hgood : GoodPaths env ps) :
    (loop_run env (init_state (join_lines ps) .eof)
        [.ev false (.inputReady (join_lines ps).length false)]).isFatal = false ∧
    (loop_run env (init_state (join_lines ps) .eof)
        [.ev false (.inputReady (join_lines ps).length false)]).state.kqRegs = ps ∧
    (loop_run env (init_state (join_lines ps) .eof)
        [.ev false (.inputReady (join_lines ps).length
          false)]).state.kqRegs.length = ps.length ∧
    dump_paths (loop_run env (init_state (join_lines ps) .eof)
        [.ev false (.inputReady (join_lines ps).length
          false)]).state.registry = ps := by
  have hfeed := register_paths_feeds_all env ps 0
    (init_state (join_lines ps) .eof) hgood rfl
  rw [Nat.zero_add] at hfeed
  rw [loop_run_cons]
  simp only [loop_step, hfeed]
  have hreg0 : (init_state (join_lines ps) .eof).registry = mk_chain [] := rfl
  refine ⟨rfl, by simp [init_state, Outcome.state, loop_run], ?_, ?_⟩
  · simp [init_state, Outcome.state, loop_run]
  · show dump_paths (ps.foldl registry_append
      (init_state (join_lines ps) .eof).registry) = ps
    rw [hreg0, foldl_registry_append_mk_chain, List.nil_append,
      dump_paths_mk_chain]

theorem C1_registrations_and_dump_order_witness :
    GoodPaths env_all ["/tmp/a", "/tmp/b"] ∧
    (loop_run env_all (init_state (join_lines ["/tmp/a", "/tmp/b"]) .eof)
        [.ev false (.inputReady (join_lines ["/tmp/a", "/tmp/b"]).length
          false)]).state.kqRegs = ["/tmp/a", "/tmp/b"] ∧
    dump_paths (loop_run env_all (init_state (join_lines ["/tmp/a", "/tmp/b"]) .eof)
        [.ev false (.inputReady (join_lines ["/tmp/a", "/tmp/b"]).length
          false)]).state.registry = ["/tmp/a", "/tmp/b"] := by
  have hgood : GoodPaths env_all ["/tmp/a", "/tmp/b"] := by
    intro p hp
    refine ⟨?_, rfl, rfl⟩
    fin_cases hp <;> decide
  obtain ⟨-, h1, -, h2⟩ :=
    C1_registrations_and_dump_order env_all ["/tmp/a", "/tmp/b"] hgood
  exact ⟨hgood, h1, h2⟩

/-- C3: dispatching a change event on a watched path appends exactly one
report record `(path, fflags)`, whose printed text is
`"<path>\t<rendered-flags>\n"` with the path supplied at registration time;
in particular registering the line `"/tmp/a\n"` and then dispatching a WRITE
change on `/tmp/a` yields exactly the report line `"/tmp/a\tWRITE\n"`. -/
theorem C3_report_line_shape (env : Env) (s : MachineState) (p : String)
    (f : Nat) (hp : p ∈ s.kqRegs) :
    loop_step env s (.ev false (.vnodeChange p f)) =
      .running { s with output := s.output ++ [(p, f)] } ∧
    report_text (p, f) = p ++ "\t" ++ change_flags_to_msg f "" ++ "\n" ∧
    (loop_run env_all (init_state ("/tmp/a\n".data) .eof)
        [.ev false (.inputReady 7 false),
         .ev false (.vnodeChange "/tmp/a" NOTE_WRITE)]).state.output.map
      report_text = ["/tmp/a\tWRITE\n"] := by
  refine ⟨rfl, rfl, ?_⟩
  have hgood : GoodPaths env_all ["/tmp/a"] := by
    intro q hq
    refine ⟨?_, rfl, rfl⟩
    fin_cases hq <;> decide
  have hfeed := register_paths_feeds_all env_all ["/tmp/a"] 0
    (init_state ("/tmp/a\n".data) .eof) hgood (by decide)
  rw [Nat.zero_add] at hfeed
  have h7 : (join_lines ["/tmp/a"]).length = 7 := by decide
  rw [h7] at hfeed
  rw [loop_run_cons]
  simp only [loop_step, hfeed]
  rw [loop_run_cons]
  simp only [loop_step, loop_run, handle_event, Outcome.state]
  decide

theorem C3_report_line_shape_witness :
    "/x" ∈ ({ init_state [] .eof with kqRegs := ["/x"] } : MachineState).kqRegs ∧
    loop_step env_all { init_state [] .eof with kqRegs := ["/x"] }
        (.ev false (.vnodeChange "/x" 2)) =
      .running { ({ init_state [] .eof with kqRegs := ["/x"] } : MachineState) with
          output := ({ init_state [] .eof with
            kqRegs := ["/x"] } : MachineState).output ++ [("/x", 2)] } :=
  ⟨by decide,
   (C3_report_line_shape env_all { init_state [] .eof with kqRegs := ["/x"] }
     "/x" 2 (by decide)).1⟩

/-- C5: the parser strips the trailing newline of each line, accepts an
unterminated final line at true end-of-stream, produces no path from an
empty trailing fragment, and treats a non-EOF read failure as fatal; in
particular feeding `"/tmp/a\n/tmp/b"` (no trailing newline) with EOF
signaled and 13 ready bytes registers exactly `/tmp/a` and `/tmp/b`. -/
theorem C5_line_parsing (env : Env)
    (ho1 : env.canOpen "/tmp/a" = true) (hw1 : env.canWatch "/tmp/a" = true)
    (ho2 : env.canOpen "/tmp/b" = true) (hw2 : env.canWatch "/tmp/b" = true) :
    ((register_paths env 13 true 0
        (init_state ("/tmp/a\n/tmp/b".data) .eof)).isFatal = false ∧
     (register_paths env 13 true 0
        (init_state ("/tmp/a\n/tmp/b".data) .eof)).state.kqRegs =
          ["/tmp/a", "/tmp/b"]) ∧
    (∀ (ba br : Nat) (s : MachineState), s.stream.remaining = [] →
      s.stream.ended = .eof → (br < ba ∨ s.stream.eofFlag = false) →
      register_paths env ba true br s =
        .running { s with stream := { s.stream with eofFlag := true } }) ∧
    (∀ (ba br : Nat) (s : MachineState), s.stream.remaining = [] →
      s.stream.ended = .readError → s.stream.eofFlag = false → br < ba →
      register_paths env ba true br s = .fatal 1 "couldn't read input" s) := by
  refine ⟨?_, ?_, ?_⟩
  · have h1 := register_paths_step_line_ok env 13 true 0
      (init_state ("/tmp/a\n/tmp/b".data) .eof) ("/tmp/a".data)
      ("/tmp/b".data) (by decide) (by decide) ho1 hw1 (Or.inl (by decide))
    rw [show (0 + ("/tmp/a".data.length + 1)) = 7 from by decide] at h1
    rw [h1]
    rw [register_paths_step_lastline_ok env 13 true 7 _ ("/tmp/b".data) rfl
      (by decide) (by decide) rfl ho2 hw2 (Or.inl (by decide))]
    rw [show (7 + "/tmp/b".data.length) = 13 from by decide]
    rw [register_paths_stop]
    · exact ⟨rfl, by decide⟩
    · decide
  · intro ba br s h1 h2 h3
    refine register_paths_eof_break env ba true br s h1 h2 ?_
    rcases h3 with h3 | h3
    · exact Or.inl h3
    · exact Or.inr ⟨rfl, h3⟩
  · intro ba br s h1 h2 h3 h4
    exact register_paths_read_error env ba true br s h1 h2 h3 (Or.inl h4)

theorem C5_line_parsing_witness :
    env_all.canOpen "/tmp/a" = true ∧ env_all.canWatch "/tmp/a" = true ∧
    env_all.canOpen "/tmp/b" = true ∧ env_all.canWatch "/tmp/b" = true ∧
    (register_paths env_all 13 true 0
        (init_state ("/tmp/a\n/tmp/b".data) .eof)).state.kqRegs =
      ["/tmp/a", "/tmp/b"] :=
  ⟨rfl, rfl, rfl, rfl, (C5_line_parsing env_all rfl rfl rfl rfl).1.2⟩

/-- C6: when the wait is interrupted by the diagnostic trigger (EINTR from
the `SIGUSR1` handler, the only installed handler), the iteration is
discarded: the state is unchanged, nothing is dispatched, it is not an error,
and the run continues with the remaining wakeups; any other wait failure is
fatal via `err(1, "error checking kqueue")`. -/
theorem C6_interrupted_wait (env : Env) (s : MachineState) (ws : List Wakeup) :
    loop_step env s .eintr = .running s ∧
    loop_run env s (.eintr :: ws) = loop_run env s ws ∧
    loop_step env s .waitErr = .fatal 1 "error checking kqueue" s :=
  ⟨rfl, rfl, rfl⟩

/-- C10: a bare newline on the control stream before end-of-stream is not
skipped: it is decoded as the empty-string path, appended to the registry,
and handed to `register_path`; since `open("")` fails, the process terminates
fatally, with the empty path in the registry and no watch armed. -/
theorem C10_empty_line_registered (env : Env) (rest : List Char)
    (ba : Nat) (eofSig : Bool) (e : StreamEnd)
    (hopen : env.canOpen "" = false) (hba : 0 < ba) :
    register_paths env ba eofSig 0 (init_state ('\n' :: rest) e) =
      .fatal env.openErrno ("couldn't open " ++ "")
        { init_state ('\n' :: rest) e with
            registry :=
              registry_append (init_state ('\n' :: rest) e).registry "",
            stream := { (init_state ('\n' :: rest) e).stream with
              remaining := rest } } ∧
    registry_paths
      (registry_append (init_state ('\n' :: rest) e).registry "") = [""] ∧
    (init_state ('\n' :: rest) e).kqRegs = [] ∧
    ("couldn't open " ++ "" : String) = "couldn't open " := by
  refine ⟨?_, ?_, rfl, by decide⟩
  · exact register_paths_step_line_badopen env ba eofSig 0
      (init_state ('\n' :: rest) e) [] rest rfl (by decide) hopen (Or.inl hba)
  · exact (by decide : registry_paths (registry_append
      { nodes := [], paths_head := none, paths_tail := none } "") = [""])

theorem C10_empty_line_registered_witness :
    env_noopen.canOpen "" = false ∧ 0 < 1 ∧
    register_paths env_noopen 1 false 0 (init_state ('\n' :: []) .eof) =
      .fatal env_noopen.openErrno ("couldn't open " ++ "")
        { init_state ('\n' :: []) .eof with
            registry :=
              registry_append (init_state ('\n' :: []) .eof).registry "",
            stream := { (init_state ('\n' :: []) .eof).stream with
              remaining := [] } } :=
  ⟨rfl, by decide,
   (C10_empty_line_registered env_noopen [] 1 false .eof rfl (by decide)).1⟩

/-- C7: a decoded path that cannot be opened or registered terminates the
process immediately (`err` with a positive status and a descriptive message,
state otherwise unchanged), and over any kernel-consistent run such a path is
never armed and no report line is ever recorded for it. -/
theorem C7_unopenable_path_fatal (env : Env) (p : String) (s : MachineState)
    (ws : List Wakeup)
    (herrno : 0 < env.openErrno)
    (hbad : env.canOpen p = false ∨ env.canWatch p = false)
    (hvalid : ValidRun env s ws) (hkq : p ∉ s.kqRegs)
    (hout : ∀ r ∈ s.output, r.1 ≠ p) :
    (env.canOpen p = false →
      register_path env s p = .fatal env.openErrno ("couldn't open " ++ p) s ∧
        0 < (register_path env s p).exitCode) ∧
    (env.canOpen p = true → env.canWatch p = false →
      register_path env s p = .fatal 1 ("couldn't monitor " ++ p) s ∧
        0 < (register_path env s p).exitCode) ∧
    p ∉ (loop_run env s ws).state.kqRegs ∧
    (∀ r ∈ (loop_run env s ws).state.output, r.1 ≠ p) := by
  refine ⟨?_, ?_, ?_, ?_⟩
  · intro h
    have hf := register_path_badopen env s p h
    refine ⟨hf, ?_⟩
    rw [hf]
    exact herrno
  · intro h1 h2
    have hf := register_path_badwatch env s p h1 h2
    refine ⟨hf, ?_⟩
    rw [hf]
    exact Nat.one_pos
  · exact (loop_run_no_bad_path env p hbad ws s hvalid hkq hout).1
  · exact (loop_run_no_bad_path env p hbad ws s hvalid hkq hout).2

theorem C7_unopenable_path_fatal_witness :
    0 < env_noopen.openErrno ∧
    env_noopen.canOpen "/nope" = false ∧
    ValidRun env_noopen (init_state [] .eof) [.eintr] ∧
    "/nope" ∉ (init_state [] .eof).kqRegs ∧
    (∀ r ∈ (init_state [] .eof).output, r.1 ≠ "/nope") ∧
    (register_path env_noopen (init_state [] .eof) "/nope" =
      .fatal env_noopen.openErrno ("couldn't open " ++ "/nope")
        (init_state [] .eof)) ∧
    "/nope" ∉ (loop_run env_noopen (init_state [] .eof) [.eintr]).state.kqRegs := by
  have happ := C7_unopenable_path_fatal env_noopen "/nope" (init_state [] .eof)
    [.eintr] (by decide) (Or.inl rfl) ⟨trivial, trivial⟩ (by decide) (by decide)
  exact ⟨by decide, rfl, ⟨trivial, trivial⟩, by decide, by decide,
    (happ.1 rfl).1, happ.2.2.1⟩

/-- C4 counterexample: feed the single line `"/bad\n"` in an environment in
which `open` fails. The run terminates fatally in a reachable state in which
the registry holds `/bad` but no live registration exists — so the append
and the arming are not one atomic step and the two collections do diverge at
fatal termination (and in the window between `insque` and `register_path`). -/
theorem C4_counterexample :
    (loop_run env_noopen (init_state ("/bad\n".data) .eof)
        [.ev false (.inputReady 5 false)]).isFatal = true ∧
    registry_paths (loop_run env_noopen (init_state ("/bad\n".data) .eof)
        [.ev false (.inputReady 5 false)]).state.registry = ["/bad"] ∧
    (loop_run env_noopen (init_state ("/bad\n".data) .eof)
        [.ev false (.inputReady 5 false)]).state.kqRegs = [] := by
  have h1 := register_paths_step_line_badopen env_noopen 5 false 0
    (init_state ("/bad\n".data) .eof) ("/bad".data) [] (by decide) (by decide)
    rfl (Or.inl (by decide))
  rw [loop_run_cons]
  simp only [loop_step, h1]
  exact ⟨rfl, by decide, rfl⟩

/-- C4 (amended): the registry append and the kqueue arming are sequential
within one iteration, not atomic. What holds: from any state where the
registry is the well-formed chain over exactly the armed paths, every
reachable outcome satisfies `SyncedOutcome` — at every running (quiescent)
state the registry lists exactly the armed paths, and the diagnostic dump
prints exactly them; at a fatal state the registry holds at most one extra
path, one the environment refused to open or watch (appended but never
armed). -/
theorem C4_amended_registry_sync (env : Env) (ws : List Wakeup)
    (s : MachineState) (hreg : s.registry = mk_chain s.kqRegs) :
    SyncedOutcome env (loop_run env s ws) ∧
    (∀ s', loop_run env s ws = .running s' →
      dump_paths s'.registry = s'.kqRegs) := by
  have h := loop_run_sync env ws s hreg
  refine ⟨h, ?_⟩
  intro s' h'
  rw [h'] at h
  show dump_paths s'.registry = s'.kqRegs
  rw [show s'.registry = mk_chain s'.kqRegs from h, dump_paths_mk_chain]

theorem C4_amended_registry_sync_witness :
    (init_state [] .eof).registry = mk_chain (init_state [] .eof).kqRegs ∧
    SyncedOutcome env_all (loop_run env_all (init_state [] .eof) [.eintr]) :=
  ⟨rfl, (C4_amended_registry_sync env_all [.eintr] (init_state [] .eof) rfl).1⟩

end Kqfm
